import Mathlib

/-!
# Verification of the shiviz log-parsing, graph-building and motif core

This file gives a shallow embedding, in Lean 4, of the parts of the
shiviz repository that the specification talks about:

* `src/js/parser.js` — `LogParser`, `ExecutionParser` and the inner
  `parseTimestamp`, embedded over an abstract view of regular-expression
  matching (a match list per segment);
* `src/js/graphBuilder.js` — the `GraphBuilder` host-list operations
  `addHost`, `removeHost` and `clear`;
* `VectorTimestamp` and `MotifFinder`, whose source files are not part of
  the excerpt and are therefore modelled from the specification where a
  claim needs them.

Machine strings are Lean `String`s, JS array indices are `Nat`, JS objects
used as string-keyed tables are association lists with last-write-wins
lookup, and JS exceptions are values of an explicit error type threaded
with `Except`.
-/

namespace Shiviz

/-- JS runtime errors observable from the embedded code: a `ReferenceError`
raised by reading an undeclared identifier, or a thrown shiviz `Exception`
carrying its message text. -/
inductive JsError where
  | referenceError (name : String)
  | exception (msg : String)
  deriving DecidableEq, Repr

/-- The outcome of the event regexp's `clock` capture for one match, with the
platform stages classified: `missing` when the pattern has no `clock` group
(so `match.clock` is `undefined` and `JSON.parse` throws on it), `malformed`
when `JSON.parse` throws on the captured text, `notMapping` when the JSON
parses but is not a host-to-count mapping (the `VectorTimestamp` constructor
throws, per §4.1 of the spec — its source file is not in the excerpt), and
`valid m` when the text denotes the mapping `m`. -/
inductive ClockCapture where
  | missing
  | malformed (raw : String)
  | notMapping (raw : String)
  | valid (m : List (String × Nat))
  deriving DecidableEq, Repr

/-- Modelled from the spec: `VectorTimestamp` (§3, §4.1) — its source file is
not part of the excerpt. A mapping from host identifier to count plus an
owner host; the owner is `Option` because `parser.js` can pass an undefined
`host` capture through unchecked. -/
structure VectorTimestamp where
  clock : List (String × Nat)
  owner : Option String
  deriving DecidableEq, Repr

/-- One match of the event regexp against a segment, as `NamedRegExp.exec`
hands it to the `ExecutionParser` loop: the match's start index in the
segment, the `clock` capture (already classified, see `ClockCapture`), the
`host` and `event` captures (`none` when the pattern lacks the group, in
which case the JS property is `undefined`), and the extra named captures. -/
structure RawMatch where
  index : Nat
  clock : ClockCapture
  host : Option String
  eventText : Option String
  fields : List (String × Option String)
  deriving DecidableEq, Repr

/-- Modelled from the spec: the `LogEvent` shape (§3) — its source file is
not part of the excerpt; `parser.js` constructs it as
`new LogEvent(event, timestamp, ln, fields)`. -/
structure LogEvent where
  text : Option String
  vt : VectorTimestamp
  lineNumber : Nat
  fields : List (String × Option String)
  deriving DecidableEq, Repr

/-- The identifiers declared (as parameters or `var`s) in the scope that
encloses the `parseTimestamp` helper inside `ExecutionParser`
(src/js/parser.js:101-161). Neither `line` nor `text` is declared anywhere
in the file, although the error-construction code of `parseTimestamp` reads
both. -/
def executionParserScope : List String :=
  ["rawString", "label", "regexp", "timestamps", "logEvents", "match",
   "newlines", "ln", "clock", "host", "event", "fields", "timestamp",
   "parseTimestamp", "clockString", "hostString", "err", "exception", "ret"]

/-- Reading a JS identifier: succeeds when the name is declared in the
enclosing scope, otherwise raises a `ReferenceError`, as an undeclared read
does in a browser. -/
def readVar (x : String) : Except JsError Unit :=
  if executionParserScope.contains x then .ok () else .error (.referenceError x)

/-- Embedding of `parseTimestamp` (src/js/parser.js:137-159). A valid clock
mapping yields the `VectorTimestamp` built from it with the `host` capture
as owner. On every failing clock the source builds an `Exception` whose
message is `"... on line " + (line + 1) + ":"` and appends `text`; both
`line` and `text` are undeclared identifiers (see `executionParserScope`),
so evaluating the message raises `ReferenceError` for `line` first, and the
intended `Exception` is never constructed. -/
def parseTimestamp (c : ClockCapture) (host : Option String) :
    Except JsError VectorTimestamp :=
  match c with
  | .valid m => .ok ⟨m, host⟩
  | _ =>
    match readVar "line" with
    | .error e => .error e
    | .ok _ =>
      match readVar "text" with
      | .error e => .error e
      | .ok _ => .error (.exception "An error occured while trying to parse the vector timestamp")

/-- The number of newline characters among the first `idx` characters of
`raw`: the embedding of `rawString.substr(0, match.index).match(/\n/g)`
(src/js/parser.js:117). -/
def countNewlines (raw : List Char) (idx : Nat) : Nat :=
  ((raw.take idx).filter (fun c => c == '\n')).length

/-- The 1-based line number of a match starting at character index `idx`
(src/js/parser.js:117-118): `newlines ? newlines.length + 1 : 1`. -/
def lineNumberOf (raw : List Char) (idx : Nat) : Nat :=
  countNewlines raw idx + 1

/-- Embedding of the `ExecutionParser` match loop (src/js/parser.js:115-135):
for each match in order it computes the line number from the newline count
before the match start, parses the timestamp (aborting the whole parse if
that throws), and appends a `LogEvent` built from the `event` capture, the
timestamp, the line number and the extra fields. -/
def parseExecution (raw : List Char) : List RawMatch → Except JsError (List LogEvent)
  | [] => .ok []
  | m :: ms =>
    match parseTimestamp m.clock m.host with
    | .error e => .error e
    | .ok vt =>
      match parseExecution raw ms with
      | .error e => .error e
      | .ok evs => .ok (⟨m.eventText, vt, lineNumberOf raw m.index, m.fields⟩ :: evs)

/-- The `currExecs[i].trim().length > 0` test from src/js/parser.js:55, as a
blankness predicate: a string trims to the empty string exactly when every
one of its characters is whitespace. -/
def isBlank (s : String) : Bool := s.toList.all (fun c => c.isWhitespace)

/-- The label paired with split segment `i` (src/js/parser.js:45-56):
`currLabels = [""]` followed by the `trace` captures of the delimiter
matches in order, indexed positionally; an out-of-range JS index reads
`undefined`, which stringifies to `"undefined"` when used as an object key. -/
def segLabel (traces : List String) (i : Nat) : String :=
  ("" :: traces).getD i "undefined"

/-- The (label, segment) pairs the `LogParser` constructor keeps
(src/js/parser.js:54-59): segment `i` of the split is kept iff it is not
all-whitespace, and is then stored under `currLabels[i]`. -/
def logParserKept (segs traces : List String) : List (String × String) :=
  (List.range segs.length).filterMap (fun i =>
    if isBlank (segs.getD i "") then none
    else some (segLabel traces i, segs.getD i ""))

/-- An abstract regular-expression matcher for the event pattern: the list
of matches `regexp.exec` produces, in order, on a given segment. -/
def Matcher : Type := String → List RawMatch

/-- The state a successfully constructed `LogParser` holds: the `labels`
array and the `executions` table (src/js/parser.js:38-41), the latter as the
ordered list of assignments made to the JS object. -/
structure LPState where
  labels : List String
  execs : List (String × List LogEvent)
  deriving DecidableEq, Repr

/-- Parses each kept segment with one `ExecutionParser`
(src/js/parser.js:56), propagating the first thrown error. -/
def buildExecs (M : Matcher) : List (String × String) →
    Except JsError (List (String × List LogEvent))
  | [] => .ok []
  | (l, seg) :: rest =>
    match parseExecution seg.toList (M seg) with
    | .error e => .error e
    | .ok evs =>
      match buildExecs M rest with
      | .error e => .error e
      | .ok r => .ok ((l, evs) :: r)

/-- Embedding of the `LogParser` constructor in the branch where a delimiter
is supplied (src/js/parser.js:43-59): `segs` are the results of
`rawString.split(delimiter.no)` on the trimmed text and `traces` the `trace`
captures of the delimiter matches in order. -/
def logParserConstruct (M : Matcher) (segs traces : List String) :
    Except JsError LPState :=
  match buildExecs M (logParserKept segs traces) with
  | .error e => .error e
  | .ok execs => .ok ⟨(logParserKept segs traces).map Prod.fst, execs⟩

/-- Embedding of the `LogParser` constructor in the no-delimiter branch
(src/js/parser.js:60-63): the whole text (`raw` is already trimmed, as the
constructor stores `rawString.trim()` at line 29) is one execution with
label `""`, unconditionally. -/
def logParserNoDelim (M : Matcher) (raw : String) : Except JsError LPState :=
  match parseExecution raw.toList (M raw) with
  | .error e => .error e
  | .ok evs => .ok ⟨[""], [("", evs)]⟩

/-- Lookup in a JS object regarded as its ordered assignment list: a later
assignment to the same key overwrites an earlier one. -/
def lookupLast {α : Type} : List (String × α) → String → Option α
  | [], _ => none
  | (k, v) :: rest, l =>
    match lookupLast rest l with
    | some r => some r
    | none => if k == l then some v else none

/-- Embedding of `LogParser.prototype.getLogEvents` (src/js/parser.js:85-88):
`null` when the label has no entry in the table, otherwise the stored
execution's event list. -/
def getLogEvents (st : LPState) (label : String) : Option (List LogEvent) :=
  lookupLast st.execs label

/-- Embedding of `LogParser.prototype.getLabels` (src/js/parser.js:73-75). -/
def getLabels (st : LPState) : List String :=
  st.labels

/-! ## GraphBuilder (src/js/graphBuilder.js) -/

/-- `GraphBuilder.MAX_HOSTS` (src/js/graphBuilder.js:23). -/
def MAX_HOSTS : Nat := 5

/-- The host-list state of a `GraphBuilder`. Each host is identified by the
id it is created with; ids are drawn from a fresh counter to reflect the
fact that `new GraphBuilderHost(...)` yields a distinct JS object each time
(JS `indexOf` compares hosts by reference identity). -/
structure GBState where
  hosts : List Nat
  nextId : Nat
  deriving DecidableEq, Repr

/-- The message of the exception `addHost` throws at capacity
(src/js/graphBuilder.js:36). -/
def addHostMsg : String := "GraphBuilder.prototype.addHost: no new hosts may be added"

/-- Embedding of `GraphBuilder.prototype.addHost` (src/js/graphBuilder.js:33-49):
with `MAX_HOSTS` hosts present it throws before touching the list; otherwise
it pushes exactly one new host (the SVG sizing side effects are display-only
and not modelled). -/
def addHost (st : GBState) : Except JsError GBState :=
  if MAX_HOSTS ≤ st.hosts.length then .error (.exception addHostMsg)
  else .ok ⟨st.hosts ++ [st.nextId], st.nextId + 1⟩

/-- Embedding of `Array.remove` (src/js/graphBuilder.js:296-305) on a
non-function argument: `arr.splice(arr.indexOf(arg), 1)`. When the element
is absent, `indexOf` yields `-1` and `splice(-1, 1)` removes the last
element. -/
def arrayRemove (hosts : List Nat) (h : Nat) : List Nat :=
  match hosts.findIdx? (fun x => x == h) with
  | some i => hosts.eraseIdx i
  | none => hosts.dropLast

/-- Embedding of `GraphBuilder.prototype.removeHost`
(src/js/graphBuilder.js:51-88): only the host-list mutation is modelled,
the rest of the body is SVG bookkeeping. -/
def removeHost (st : GBState) (h : Nat) : GBState :=
  ⟨arrayRemove st.hosts h, st.nextId⟩

/-- The while loop of `GraphBuilder.prototype.clear`
(src/js/graphBuilder.js:128-129): repeatedly remove the last host while any
remains. The loop removes one host per iteration, so `hosts.length` rounds
of fuel run it to completion. -/
def clearLoop : Nat → GBState → GBState
  | 0, st => st
  | fuel + 1, st =>
    match st.hosts.getLast? with
    | none => st
    | some h => clearLoop fuel (removeHost st h)

/-- Embedding of `GraphBuilder.prototype.clear` (src/js/graphBuilder.js:127-133):
remove every host, then add two back. The two trailing `addHost` calls start
from an empty list, so their throwing branches are unreachable; they are
caught here only to keep the definition total. -/
def clearGB (st : GBState) : GBState :=
  match addHost (clearLoop st.hosts.length st) with
  | .error _ => clearLoop st.hosts.length st
  | .ok st3 =>
    match addHost st3 with
    | .error _ => st3
    | .ok st4 => st4

/-- A user-driven operation on the builder's host list. -/
inductive GBOp where
  | add
  | remove (h : Nat)
  | clear
  deriving DecidableEq, Repr

/-- One operation step: a thrown `addHost` propagates past the mutation, so
the host list is unchanged in that case. -/
def runOp (st : GBState) : GBOp → GBState
  | .add =>
    match addHost st with
    | .ok st2 => st2
    | .error _ => st
  | .remove h => removeHost st h
  | .clear => clearGB st

/-- Run a sequence of operations from a starting state. -/
def runOps (st : GBState) (ops : List GBOp) : GBState :=
  ops.foldl runOp st

/-- The state the `GraphBuilder` constructor leaves behind
(src/js/graphBuilder.js:8,19-20): an empty host list followed by two
`addHost` calls. -/
def initGB : GBState := runOps ⟨[], 0⟩ [.add, .add]

/-! ## VectorTimestamp operations (modelled from the spec)

The `VectorTimestamp` source file is not part of the excerpt; §4.1 of the
spec fixes its operations. -/

/-- Modelled from the spec: the count a clock mapping assigns to a host,
with missing keys read as 0 (§4.1, `compare`/`update` conventions). -/
def clockVal (c : List (String × Nat)) (h : String) : Nat :=
  match c.find? (fun p => p.1 == h) with
  | some p => p.2
  | none => 0

/-- Modelled from the spec: `VectorTimestamp.parse(clockText, hostId)` on a
valid clock text (§4.1) — a valid text denotes a host-to-count mapping `m`,
and parse stores that mapping with owner `hostId`. -/
def vtParse (m : List (String × Nat)) (hostId : String) : VectorTimestamp :=
  ⟨m, some hostId⟩

/-- The keys of `a` followed by the keys of `b` not already present. -/
def unionKeys (a b : List String) : List String :=
  a ++ b.filter (fun h => decide (h ∉ a))

/-- Modelled from the spec: `update(other)` (§4.1) — a new timestamp whose
mapping is the component-wise max of self and other over the union of their
host keys, and whose owner is self's owner. -/
def vtUpdate (a b : VectorTimestamp) : VectorTimestamp :=
  ⟨(unionKeys (a.clock.map Prod.fst) (b.clock.map Prod.fst)).map
      (fun h => (h, max (clockVal a.clock h) (clockVal b.clock h))),
   a.owner⟩

/-- Modelled from the spec: the component-wise order test on clock mappings
with missing keys read as 0 (§4.1, `compare`). -/
def vtLe (a b : VectorTimestamp) : Bool :=
  (unionKeys (a.clock.map Prod.fst) (b.clock.map Prod.fst)).all
    (fun h => decide (clockVal a.clock h ≤ clockVal b.clock h))

/-- Two timestamps are order-comparable when either is componentwise below
the other (§4.1: not CONCURRENT). -/
def vtComparable (a b : VectorTimestamp) : Bool :=
  vtLe a b || vtLe b a

/-! ## MotifFinder (modelled from the spec)

The `MotifFinder` source file is not part of the excerpt; §4.3 and §7 of
the spec fix its contract. -/

/-- Modelled from the spec: a causality graph (§3) as the `MotifFinder`
consumes it — nodes are `0 .. hosts.length - 1`, `hosts[i]` is node `i`'s
host, `vts[i]` its vector timestamp (carried only so that theorems can
state that matching never consults it), and `edges` the directed
happens-before edges. -/
structure CGraph where
  hosts : List String
  vts : List VectorTimestamp
  edges : List (Nat × Nat)
  deriving DecidableEq, Repr

/-- Modelled from the spec: a builder pattern (§3, §4.3) — pattern nodes
`0 .. hosts.length - 1` with their required hosts, and pattern edges
asserting a required happens-before between two pattern nodes. -/
structure BPattern where
  hosts : List String
  edges : List (Nat × Nat)
  deriving DecidableEq, Repr

/-- Reachability from `x` to `y` through the edge list in one or more steps,
by bounded unfolding; fuel `hosts.length` covers every simple path of the
graph. -/
def reachFuel (edges : List (Nat × Nat)) : Nat → Nat → Nat → Bool
  | 0, _, _ => false
  | fuel + 1, x, y =>
    edges.any (fun e => e.1 == x && (e.2 == y || reachFuel edges fuel e.2 y))

/-- The causality graph's reachability relation (ancestor to descendant). -/
def reaches (g : CGraph) (x y : Nat) : Bool :=
  reachFuel g.edges g.hosts.length x y

/-- Modelled from the spec (§4.3): an assignment `f` of real nodes to
pattern nodes satisfies the pattern iff every pattern node maps to a graph
node on the pattern node's host, and every pattern edge maps to a pair
related by the graph's reachability in the ancestor-to-descendant
direction. Reachability, never timestamp comparison, is the edge criterion;
the same-host chain-order pruning of §4.3 only removes further candidates
and is not needed for the no-match claims settled below. -/
def okAssign (g : CGraph) (p : BPattern) (f : List Nat) : Bool :=
  f.length == p.hosts.length &&
  ((List.range p.hosts.length).all (fun i =>
      decide (f.getD i 0 < g.hosts.length) &&
      p.hosts.getD i "" == g.hosts.getD (f.getD i 0) "") &&
    p.edges.all (fun e => reaches g (f.getD e.1 0) (f.getD e.2 0)))

/-- All length-`k` candidate assignments with entries below `n`. -/
def allTuples (n : Nat) : Nat → List (List Nat)
  | 0 => [[]]
  | k + 1 => ((allTuples n k).map (fun t => (List.range n).map (fun v => v :: t))).flatten

/-- The error `MotifFinder.find` fails with when the search exhausts all
candidates (§7). -/
inductive MotifError where
  | noMatchError
  deriving DecidableEq, Repr

/-- Modelled from the spec: `MotifFinder.find` (§4.3, §7) — a deterministic
exhaustive search over candidate assignments returning the first satisfying
one, or failing with `NoMatchError` when no satisfying assignment exists. -/
def motifFind (g : CGraph) (p : BPattern) : Except MotifError (List Nat) :=
  match (allTuples g.hosts.length p.hosts.length).find? (okAssign g p) with
  | some f => .ok f
  | none => .error .noMatchError

/-! ## Helper lemmas -/

theorem parseTimestamp_valid (m : List (String × Nat)) (host : Option String) :
    parseTimestamp (.valid m) host = .ok ⟨m, host⟩ := rfl

/-- Every non-`valid` clock capture makes `parseTimestamp` raise the
`ReferenceError` for the undeclared identifier `line`. -/
theorem parseTimestamp_invalid (c : ClockCapture) (host : Option String)
    (hc : ∀ m, c ≠ .valid m) :
    parseTimestamp c host = .error (.referenceError "line") := by
  cases c with
  | valid m => exact absurd rfl (hc m)
  | missing => rfl
  | malformed raw => rfl
  | notMapping raw => rfl

/-- Inversion for a successful parse of a non-empty match list. -/
theorem parseExecution_cons_ok {raw : List Char} {m : RawMatch} {ms : List RawMatch}
    {evs : List LogEvent} (h : parseExecution raw (m :: ms) = .ok evs) :
    ∃ vt evs', parseTimestamp m.clock m.host = .ok vt ∧
      parseExecution raw ms = .ok evs' ∧
      evs = ⟨m.eventText, vt, lineNumberOf raw m.index, m.fields⟩ :: evs' := by
  unfold parseExecution at h
  cases hpt : parseTimestamp m.clock m.host with
  | error e => rw [hpt] at h; exact absurd h (by simp)
  | ok vt =>
    rw [hpt] at h
    cases hpe : parseExecution raw ms with
    | error e => rw [hpe] at h; exact absurd h (by simp)
    | ok evs' =>
      rw [hpe] at h
      exact ⟨vt, evs', rfl, rfl, by injection h with h'; exact h'.symm⟩

theorem parseExecution_ok_length {raw : List Char} {ms : List RawMatch}
    {evs : List LogEvent} (h : parseExecution raw ms = .ok evs) :
    evs.length = ms.length := by
  induction ms generalizing evs with
  | nil => injection h with h'; subst h'; rfl
  | cons m ms ih =>
    obtain ⟨vt, evs', _, hpe, rfl⟩ := parseExecution_cons_ok h
    simp [ih hpe]

theorem parseExecution_ok_get {raw : List Char} {ms : List RawMatch}
    {evs : List LogEvent} (h : parseExecution raw ms = .ok evs)
    (k : Nat) (hk : k < ms.length) (hk' : k < evs.length) :
    evs[k].lineNumber = lineNumberOf raw ms[k].index := by
  induction ms generalizing evs k with
  | nil => exact absurd hk (by simp)
  | cons m ms ih =>
    obtain ⟨vt, evs', _, hpe, rfl⟩ := parseExecution_cons_ok h
    cases k with
    | zero => rfl
    | succ k =>
      simp only [List.getElem_cons_succ]
      exact ih hpe k (by simpa using hk) (by simpa using hk')

/-- If any match in the list carries a non-`valid` clock capture, the whole
parse aborts with the `ReferenceError` for `line` (the first failing match
raises it, and every failing match raises the same error). -/
theorem parseExecution_aborts {raw : List Char} {ms : List RawMatch}
    (hbad : ∃ m ∈ ms, ∀ cm, m.clock ≠ .valid cm) :
    parseExecution raw ms = .error (.referenceError "line") := by
  induction ms with
  | nil => simp at hbad
  | cons m ms ih =>
    obtain ⟨m', hm', hbad'⟩ := hbad
    unfold parseExecution
    cases hc : m.clock with
    | valid cm =>
      rcases List.mem_cons.mp hm' with rfl | hmem
      · exact absurd hc (hbad' cm)
      · rw [parseTimestamp_valid, ih ⟨m', hmem, hbad'⟩]
    | missing => rw [parseTimestamp_invalid _ _ (fun cm => by simp)]
    | malformed r => rw [parseTimestamp_invalid _ _ (fun cm => by simp)]
    | notMapping r => rw [parseTimestamp_invalid _ _ (fun cm => by simp)]

theorem countNewlines_mono (raw : List Char) {i j : Nat} (h : i ≤ j) :
    countNewlines raw i ≤ countNewlines raw j := by
  unfold countNewlines
  have hsub : (raw.take i).Sublist (raw.take j) := by
    have : raw.take i = (raw.take j).take i := by
      rw [List.take_take, Nat.min_eq_left h]
    rw [this]
    exact List.take_sublist _ _
  exact List.Sublist.length_le (List.Sublist.filter _ hsub)

/-! ## Claim theorems -/

/-- C1: with a delimiter supplied, the `LogParser` pairs each split segment
positionally with the label captured by the delimiter match preceding it
(label `""` for the segment before the first delimiter), drops exactly the
all-whitespace segments, and the label of a kept segment depends only on
its position and the captured traces — never on the content of (possibly
blank, dropped) segments before it, since the theorem holds for all `segs`
with the segment at `i` fixed. -/
theorem logParser_label_assignment (segs traces : List String) (i : Nat)
    (hi : i < segs.length)
    (hnb : isBlank (segs.getD i "") = false) :
    (segLabel traces i, segs.getD i "") ∈ logParserKept segs traces ∧
    ∀ p ∈ logParserKept segs traces, isBlank p.2 = false := by
  constructor
  · rw [logParserKept, List.mem_filterMap]
    exact ⟨i, List.mem_range.mpr hi, by rw [hnb]; simp⟩
  · intro p hp
    rw [logParserKept, List.mem_filterMap] at hp
    obtain ⟨j, _, hf⟩ := hp
    by_cases hb : isBlank (segs.getD j "") = true
    · rw [hb] at hf; simp at hf
    · rw [Bool.not_eq_true] at hb
      rw [hb] at hf
      simp only [if_neg Bool.false_ne_true] at hf
      injection hf with hf'
      rw [← hf']
      exact hb

theorem logParser_label_assignment_witness :
    (("b", "y") ∈ logParserKept ["x", " ", "y"] ["a", "b"] ∧
      ∀ p ∈ logParserKept ["x", " ", "y"] ["a", "b"], isBlank p.2 = false) :=
  logParser_label_assignment ["x", " ", "y"] ["a", "b"] 2 (by decide) (by decide)

/-- C2 (code bug): evaluating the code at a failing input. The execution's
text is `{bad} e1` on source line 3 of the segment (match at character
index 10, after two newlines), with a clock capture `{bad}` that
`JSON.parse` rejects. The parse does abort with no event list, but the
raised error is the `ReferenceError` for the undeclared identifier `line`
(src/js/parser.js:142 reads `line`, and line 143 reads `text`; neither is
declared anywhere in the file), so it carries neither the 1-based line
number 3 nor the offending clock text `{bad}` that the claim requires —
the enclosing `LogParser` construction aborts with the same error. -/
theorem malformedClock_raises_referenceError :
    parseExecution "l1\nl2\n{bad} e1".toList
        [⟨10, .malformed "{bad}", some "h", some "e1", []⟩] =
      .error (.referenceError "line") ∧
    logParserConstruct
        (fun _ => [⟨10, .malformed "{bad}", some "h", some "e1", []⟩])
        ["l1\nl2\n{bad} e1"] [] =
      .error (.referenceError "line") := by
  constructor
  · rfl
  · rfl

/-- C3 (counterexample): an event pattern lacking the required `host`
capture group. `NamedRegExp` then reports `match.host` as `undefined`
(modelled as `none`), and the `LogParser`/`ExecutionParser` constructors
(src/js/parser.js:26-64 and 101-161) perform no capture-group check at all:
construction succeeds, parses the text, and produces an event with an
undefined host — no `MissingCaptureGroupError` exists anywhere in the
source, refuting "constructing the parser fails ... before any of the raw
text is processed (no events are parsed first)". -/
theorem missingCaptureGroup_counterexample :
    logParserConstruct
        (fun _ => [⟨0, .valid [("a", 1)], none, some "e1", []⟩]) ["x"] [] =
      .ok ⟨[""], [("", [⟨some "e1", ⟨[("a", 1)], none⟩, 1, []⟩])]⟩ := by
  rfl

/-- C3 (amended): the parser constructors validate nothing about the
pattern's capture groups. A match whose `host` group is absent still
yields a parsed event (with undefined host); a match whose `clock` group
is absent fails only when its clock reaches `parseTimestamp` during
construction-time text processing, via the malformed-clock path of C2
(`JSON.parse` of `undefined` throws, and the error construction raises
the `ReferenceError` for `line`). No `MissingCaptureGroupError` is ever
raised. -/
theorem missingCaptureGroup_amended (raw : List Char) (idx : Nat)
    (cm : List (String × Nat)) (ev : Option String)
    (fs : List (String × Option String)) :
    parseExecution raw [⟨idx, .valid cm, none, ev, fs⟩] =
      .ok [⟨ev, ⟨cm, none⟩, lineNumberOf raw idx, fs⟩] ∧
    parseExecution raw [⟨idx, .missing, some "h", ev, fs⟩] =
      .error (.referenceError "line") := by
  constructor
  · rfl
  · rfl

/-- C4: for a successfully parsed execution whose matches occur at strictly
increasing character indices (as successive `regexp.exec` calls yield
them), each event's recorded line number equals 1 plus the count of newline
characters strictly before the start of that event's match, and the line
numbers in parse order are monotonically non-decreasing. -/
theorem lineNumbers_correct_and_monotone
    (raw : List Char) (ms : List RawMatch) (evs : List LogEvent)
    (hsorted : List.Pairwise (fun a b => a.index < b.index) ms)
    (hok : parseExecution raw ms = .ok evs) :
    (∀ k (hk : k < ms.length) (hk' : k < evs.length),
        evs[k].lineNumber = 1 + countNewlines raw ms[k].index) ∧
    (∀ i j (hi : i < evs.length) (hj : j < evs.length), i ≤ j →
        evs[i].lineNumber ≤ evs[j].lineNumber) := by
  have hlen := parseExecution_ok_length hok
  constructor
  · intro k hk hk'
    rw [parseExecution_ok_get hok k hk hk', lineNumberOf, Nat.add_comm]
  · intro i j hi hj hij
    have hi' : i < ms.length := hlen ▸ hi
    have hj' : j < ms.length := hlen ▸ hj
    have hidx : ms[i].index ≤ ms[j].index := by
      rcases Nat.lt_or_ge i j with hlt | hge
      · exact Nat.le_of_lt (List.pairwise_iff_get.mp hsorted ⟨i, hi'⟩ ⟨j, hj'⟩ hlt)
      · have heq : i = j := Nat.le_antisymm hij hge
        subst heq
        exact Nat.le_refl _
    rw [parseExecution_ok_get hok i hi' hi, parseExecution_ok_get hok j hj' hj]
    unfold lineNumberOf
    exact Nat.add_le_add_right (countNewlines_mono raw hidx) 1

theorem lineNumbers_correct_and_monotone_witness :
    ([⟨some "e1", ⟨[("h", 1)], some "h"⟩, 1, []⟩,
      ⟨some "e2", ⟨[("h", 2)], some "h"⟩, 2, []⟩] : List LogEvent)[1].lineNumber =
      1 + countNewlines "a\nb".toList 2 :=
  (lineNumbers_correct_and_monotone "a\nb".toList
      [⟨0, .valid [("h", 1)], some "h", some "e1", []⟩,
       ⟨2, .valid [("h", 2)], some "h", some "e2", []⟩]
      [⟨some "e1", ⟨[("h", 1)], some "h"⟩, 1, []⟩,
       ⟨some "e2", ⟨[("h", 2)], some "h"⟩, 2, []⟩]
      (by decide) rfl).1 1 (by decide) (by decide)

theorem lookupLast_append {α : Type} (xs ys : List (String × α)) (k : String) :
    lookupLast (xs ++ ys) k =
      match lookupLast ys k with
      | some v => some v
      | none => lookupLast xs k := by
  induction xs with
  | nil =>
    show lookupLast ys k = _
    cases lookupLast ys k <;> rfl
  | cons p xs ih =>
    obtain ⟨a, b⟩ := p
    show (match lookupLast (xs ++ ys) k with
          | some r => some r
          | none => if a == k then some b else none) = _
    rw [ih]
    cases h' : lookupLast ys k with
    | some v => rfl
    | none => rfl

theorem lookupLast_eq_none {α : Type} {l : List (String × α)} {k : String}
    (h : ∀ p ∈ l, p.1 ≠ k) : lookupLast l k = none := by
  induction l with
  | nil => rfl
  | cons p rest ih =>
    obtain ⟨a, b⟩ := p
    unfold lookupLast
    rw [ih (fun q hq => h q (List.mem_cons_of_mem _ hq))]
    have hne : (a == k) = false :=
      beq_eq_false_iff_ne.mpr (h (a, b) (List.mem_cons_self _ _))
    simp [hne]

theorem lookupLast_mem {α : Type} {l : List (String × α)} {k : String} {v : α}
    (h : lookupLast l k = some v) : (k, v) ∈ l := by
  induction l with
  | nil => simp [lookupLast] at h
  | cons p rest ih =>
    obtain ⟨a, b⟩ := p
    unfold lookupLast at h
    cases hrest : lookupLast rest k with
    | some r =>
      rw [hrest] at h
      injection h with h'
      subst h'
      exact List.mem_cons_of_mem _ (ih hrest)
    | none =>
      rw [hrest] at h
      by_cases hak : (a == k) = true
      · rw [if_pos hak] at h
        injection h with h'
        subst h'
        have : a = k := beq_iff_eq.mp hak
        subst this
        exact List.mem_cons_self _ _
      · rw [if_neg hak] at h
        exact absurd h (by simp)

theorem lookupLast_ne_none {α : Type} {l : List (String × α)} {k : String} {v : α}
    (h : (k, v) ∈ l) : lookupLast l k ≠ none := by
  induction l with
  | nil => simp at h
  | cons p rest ih =>
    obtain ⟨a, b⟩ := p
    unfold lookupLast
    cases hrest : lookupLast rest k with
    | some r => simp
    | none =>
      rcases List.mem_cons.mp h with heq | hmem
      · injection heq with h1 h2
        subst h1
        simp
      · exact absurd hrest (ih hmem)

theorem buildExecs_cons_ok {M : Matcher} {l seg : String}
    {rest : List (String × String)} {es : List (String × List LogEvent)}
    (h : buildExecs M ((l, seg) :: rest) = .ok es) :
    ∃ evs r, parseExecution seg.toList (M seg) = .ok evs ∧
      buildExecs M rest = .ok r ∧ es = (l, evs) :: r := by
  unfold buildExecs at h
  cases hp : parseExecution seg.toList (M seg) with
  | error e => rw [hp] at h; exact absurd h (by simp)
  | ok evs =>
    rw [hp] at h
    cases hr : buildExecs M rest with
    | error e => rw [hr] at h; exact absurd h (by simp)
    | ok r =>
      rw [hr] at h
      exact ⟨evs, r, rfl, rfl, by injection h with h'; exact h'.symm⟩

theorem buildExecs_keys {M : Matcher} {ks : List (String × String)}
    {es : List (String × List LogEvent)} (h : buildExecs M ks = .ok es) :
    es.map Prod.fst = ks.map Prod.fst := by
  induction ks generalizing es with
  | nil => injection h with h'; subst h'; rfl
  | cons p rest ih =>
    obtain ⟨l, seg⟩ := p
    obtain ⟨evs, r, _, hr, rfl⟩ := buildExecs_cons_ok h
    simp [ih hr]

theorem buildExecs_mem {M : Matcher} {ks : List (String × String)}
    {es : List (String × List LogEvent)} (h : buildExecs M ks = .ok es)
    {l : String} {evs : List LogEvent} (hm : (l, evs) ∈ es) :
    ∃ seg, (l, seg) ∈ ks ∧ parseExecution seg.toList (M seg) = .ok evs := by
  induction ks generalizing es with
  | nil => injection h with h'; subst h'; simp at hm
  | cons p rest ih =>
    obtain ⟨a, seg'⟩ := p
    obtain ⟨evs', r, hp, hr, rfl⟩ := buildExecs_cons_ok h
    rcases List.mem_cons.mp hm with heq | hmem
    · injection heq with h1 h2
      subst h1
      subst h2
      exact ⟨seg', List.mem_cons_self _ _, hp⟩
    · obtain ⟨seg, hseg, hps⟩ := ih hr hmem
      exact ⟨seg, List.mem_cons_of_mem _ hseg, hps⟩

theorem buildExecs_append_ok {M : Matcher} {xs ys : List (String × String)}
    {es : List (String × List LogEvent)} (h : buildExecs M (xs ++ ys) = .ok es) :
    ∃ ex ey, buildExecs M xs = .ok ex ∧ buildExecs M ys = .ok ey ∧ es = ex ++ ey := by
  induction xs generalizing es with
  | nil => exact ⟨[], es, rfl, h, rfl⟩
  | cons p xs ih =>
    obtain ⟨a, b⟩ := p
    obtain ⟨evs, r, hp, hr, rfl⟩ := buildExecs_cons_ok h
    obtain ⟨ex, ey, hx, hy, rfl⟩ := ih hr
    refine ⟨(a, evs) :: ex, ey, ?_, hy, rfl⟩
    unfold buildExecs
    rw [hp, hx]

theorem logParserConstruct_ok {M : Matcher} {segs traces : List String}
    {st : LPState} (h : logParserConstruct M segs traces = .ok st) :
    buildExecs M (logParserKept segs traces) = .ok st.execs ∧
    st.labels = (logParserKept segs traces).map Prod.fst := by
  unfold logParserConstruct at h
  cases hb : buildExecs M (logParserKept segs traces) with
  | error e => rw [hb] at h; exact absurd h (by simp)
  | ok execs =>
    rw [hb] at h
    injection h with h'
    subst h'
    exact ⟨rfl, rfl⟩

/-- C5: for a successfully constructed `LogParser`, `getLabels` lists, in
raw-text encounter order, exactly the labels of the non-blank segments;
`getLogEvents` on a label not among them returns the not-found signal
`none` (it does not throw); and on a known label it returns `some` of the
event list parsed from one of that label's segments — events in match
(raw-text) order, as `parseExecution` produces them. -/
theorem getLogEvents_lookup (M : Matcher) (segs traces : List String)
    (st : LPState) (hok : logParserConstruct M segs traces = .ok st) :
    getLabels st = (logParserKept segs traces).map Prod.fst ∧
    (∀ l, l ∉ getLabels st → getLogEvents st l = none) ∧
    (∀ l, l ∈ getLabels st →
      ∃ seg evs, (l, seg) ∈ logParserKept segs traces ∧
        parseExecution seg.toList (M seg) = .ok evs ∧
        getLogEvents st l = some evs) := by
  obtain ⟨hbe, hlab⟩ := logParserConstruct_ok hok
  have hkeys : st.execs.map Prod.fst = (logParserKept segs traces).map Prod.fst :=
    buildExecs_keys hbe
  refine ⟨hlab, ?_, ?_⟩
  · intro l hl
    apply lookupLast_eq_none
    intro p hp hpk
    apply hl
    rw [getLabels, hlab, ← hkeys, ← hpk]
    exact List.mem_map_of_mem Prod.fst hp
  · intro l hl
    rw [getLabels, hlab, ← hkeys] at hl
    obtain ⟨p, hp, hpl⟩ := List.mem_map.mp hl
    obtain ⟨a, evs0⟩ := p
    have hpl' : a = l := hpl
    subst hpl'
    cases hv : lookupLast st.execs a with
    | none => exact absurd hv (lookupLast_ne_none hp)
    | some evs =>
      have hmem : (a, evs) ∈ st.execs := lookupLast_mem hv
      obtain ⟨seg, hseg, hps⟩ := buildExecs_mem hbe hmem
      exact ⟨seg, evs, hseg, hps, hv⟩

theorem getLogEvents_lookup_witness :
    getLogEvents
        ⟨["", "b"],
         [("", [⟨some "x", ⟨[("h", 1)], some "h"⟩, 1, []⟩]),
          ("b", [⟨some "y", ⟨[("h", 1)], some "h"⟩, 1, []⟩])]⟩ "zz" = none ∧
    (∃ seg evs, ("b", seg) ∈ logParserKept ["x", " ", "y"] ["a", "b"] ∧
      parseExecution seg.toList
          ((fun s => [⟨0, .valid [("h", 1)], some "h", some s, []⟩] : Matcher) seg) =
        .ok evs ∧
      getLogEvents
        ⟨["", "b"],
         [("", [⟨some "x", ⟨[("h", 1)], some "h"⟩, 1, []⟩]),
          ("b", [⟨some "y", ⟨[("h", 1)], some "h"⟩, 1, []⟩])]⟩ "b" = some evs) :=
  ⟨(getLogEvents_lookup (fun s => [⟨0, .valid [("h", 1)], some "h", some s, []⟩])
      ["x", " ", "y"] ["a", "b"]
      ⟨["", "b"],
       [("", [⟨some "x", ⟨[("h", 1)], some "h"⟩, 1, []⟩]),
        ("b", [⟨some "y", ⟨[("h", 1)], some "h"⟩, 1, []⟩])]⟩ rfl).2.1 "zz" (by decide),
   (getLogEvents_lookup (fun s => [⟨0, .valid [("h", 1)], some "h", some s, []⟩])
      ["x", " ", "y"] ["a", "b"]
      ⟨["", "b"],
       [("", [⟨some "x", ⟨[("h", 1)], some "h"⟩, 1, []⟩]),
        ("b", [⟨some "y", ⟨[("h", 1)], some "h"⟩, 1, []⟩])]⟩ rfl).2.2 "b" (by decide)⟩

/-- C6: when two kept segments carry the same label (the later one, `segJ`,
being the last with that label), the `executions` table maps the label to
the later segment's events — `getLogEvents` returns them — and the earlier
segment's (distinct) events are no longer retrievable under that label:
later executions silently overwrite earlier ones. -/
theorem duplicate_label_overwrites (M : Matcher) (segs traces : List String)
    (st : LPState) (pre mid post : List (String × String)) (l segI segJ : String)
    (hkept : logParserKept segs traces = pre ++ (l, segI) :: mid ++ (l, segJ) :: post)
    (hpost : ∀ p ∈ post, p.1 ≠ l)
    (hok : logParserConstruct M segs traces = .ok st)
    (evsJ : List LogEvent)
    (hparseJ : parseExecution segJ.toList (M segJ) = .ok evsJ) :
    getLogEvents st l = some evsJ ∧
    ∀ evsI, parseExecution segI.toList (M segI) = .ok evsI → evsI ≠ evsJ →
      getLogEvents st l ≠ some evsI := by
  obtain ⟨hbe, _⟩ := logParserConstruct_ok hok
  rw [hkept] at hbe
  obtain ⟨epre, erest, hepre, herest, hes⟩ := buildExecs_append_ok hbe
  obtain ⟨evsJ', epost, hpJ, hepost, her⟩ := buildExecs_cons_ok herest
  have hJ : evsJ' = evsJ := by
    rw [hparseJ] at hpJ
    injection hpJ with h'
    exact h'.symm
  rw [hJ] at her
  have hpostnone : lookupLast epost l = none := by
    apply lookupLast_eq_none
    intro p hp hpl
    have hk := buildExecs_keys hepost
    have : p.1 ∈ post.map Prod.fst := by
      rw [← hk]
      exact List.mem_map_of_mem Prod.fst hp
    obtain ⟨q, hq, hql⟩ := List.mem_map.mp this
    exact hpost q hq (hpl ▸ hql)
  have hmain : getLogEvents st l = some evsJ := by
    show lookupLast st.execs l = some evsJ
    rw [hes, her, lookupLast_append]
    have h2 : lookupLast ((l, evsJ) :: epost) l = some evsJ := by
      unfold lookupLast
      rw [hpostnone]
      simp
    rw [h2]
  refine ⟨hmain, ?_⟩
  intro evsI _ hne hcontra
  rw [hmain] at hcontra
  injection hcontra with h'
  exact hne h'.symm

theorem duplicate_label_overwrites_witness :
    getLogEvents
        ⟨["a", "a"],
         [("a", [⟨some "x", ⟨[("h", 1)], some "h"⟩, 1, []⟩]),
          ("a", [⟨some "y", ⟨[("h", 1)], some "h"⟩, 1, []⟩])]⟩ "a" =
      some [⟨some "y", ⟨[("h", 1)], some "h"⟩, 1, []⟩] :=
  (duplicate_label_overwrites
      (fun s => [⟨0, .valid [("h", 1)], some "h", some s, []⟩])
      [" ", "x", "y"] ["a", "a"]
      ⟨["a", "a"],
       [("a", [⟨some "x", ⟨[("h", 1)], some "h"⟩, 1, []⟩]),
        ("a", [⟨some "y", ⟨[("h", 1)], some "h"⟩, 1, []⟩])]⟩
      [] [] [] "a" "x" "y" (by decide) (by simp) rfl
      [⟨some "y", ⟨[("h", 1)], some "h"⟩, 1, []⟩] rfl).1

/-- C7 (counterexample): with a delimiter pattern supplied that matches the
raw text zero times, JS `split` returns the whole (already trimmed) text as
the single segment. When that text is all-whitespace — here two spaces —
the segment fails the non-blank test of src/js/parser.js:55 and is dropped,
so the parser holds zero executions rather than the claimed single
execution labeled `""`: `getLabels()` is `[]` and `getLogEvents("")` is the
not-found signal. -/
theorem zero_delim_counterexample :
    logParserConstruct (fun _ => []) ["  "] [] = .ok ⟨[], []⟩ ∧
    getLabels ⟨[], []⟩ = [] ∧
    getLogEvents ⟨[], []⟩ "" = none :=
  ⟨rfl, rfl, rfl⟩

/-- C7 (amended): with no delimiter supplied, parsing yields exactly one
execution labeled `""` holding all the text's events in match order,
unconditionally; with a delimiter supplied that matches zero times, the
same holds provided the trimmed text is not all-whitespace (an
all-whitespace text instead yields zero executions — see the
counterexample). -/
theorem zero_delim_amended (M : Matcher) (raw t : String)
    (evs evs' : List LogEvent)
    (hraw : parseExecution raw.toList (M raw) = .ok evs)
    (hnb : isBlank t = false)
    (ht : parseExecution t.toList (M t) = .ok evs') :
    logParserNoDelim M raw = .ok ⟨[""], [("", evs)]⟩ ∧
    logParserConstruct M [t] [] = .ok ⟨[""], [("", evs')]⟩ := by
  constructor
  · unfold logParserNoDelim
    rw [hraw]
  · have hkept : logParserKept [t] [] = [("", t)] := by
      unfold logParserKept
      simp [hnb, List.filterMap, segLabel]
    have hb : buildExecs M [("", t)] = .ok [("", evs')] := by
      unfold buildExecs
      rw [ht]
      rfl
    unfold logParserConstruct
    rw [hkept, hb]
    rfl

theorem zero_delim_amended_witness :
    logParserNoDelim (fun s => [⟨0, .valid [("h", 1)], some "h", some s, []⟩]) "x" =
      .ok ⟨[""], [("", [⟨some "x", ⟨[("h", 1)], some "h"⟩, 1, []⟩])]⟩ ∧
    logParserConstruct (fun s => [⟨0, .valid [("h", 1)], some "h", some s, []⟩])
        ["y"] [] =
      .ok ⟨[""], [("", [⟨some "y", ⟨[("h", 1)], some "h"⟩, 1, []⟩])]⟩ :=
  zero_delim_amended (fun s => [⟨0, .valid [("h", 1)], some "h", some s, []⟩])
    "x" "y"
    [⟨some "x", ⟨[("h", 1)], some "h"⟩, 1, []⟩]
    [⟨some "y", ⟨[("h", 1)], some "h"⟩, 1, []⟩]
    rfl (by decide) rfl

theorem clockVal_cons (k : String) (v : Nat) (rest : List (String × Nat))
    (x : String) :
    clockVal ((k, v) :: rest) x = if k = x then v else clockVal rest x := by
  unfold clockVal
  by_cases hkx : k = x
  · subst hkx
    rw [List.find?_cons_of_pos _ (by simp)]
    simp
  · rw [List.find?_cons_of_neg _ (by simpa using hkx), if_neg hkx]

theorem clockVal_eq_zero_of_not_mem {c : List (String × Nat)} {x : String}
    (h : x ∉ c.map Prod.fst) : clockVal c x = 0 := by
  induction c with
  | nil => rfl
  | cons p rest ih =>
    obtain ⟨k, v⟩ := p
    simp only [List.map_cons, List.mem_cons] at h
    push_neg at h
    rw [clockVal_cons, if_neg (fun hk => h.1 hk.symm)]
    exact ih h.2

theorem clockVal_map_keys (ks : List String) (f : String → Nat) (x : String) :
    clockVal (ks.map (fun h => (h, f h))) x = if x ∈ ks then f x else 0 := by
  induction ks with
  | nil => simp [clockVal]
  | cons k ks ih =>
    rw [List.map_cons, clockVal_cons, ih]
    by_cases hkx : k = x
    · subst hkx
      simp
    · rw [if_neg hkx]
      by_cases hx : x ∈ ks
      · rw [if_pos hx, if_pos (List.mem_cons_of_mem _ hx)]
      · rw [if_neg hx, if_neg (fun hmem => by
          rcases List.mem_cons.mp hmem with h' | h'
          · exact hkx h'.symm
          · exact hx h')]

theorem mem_unionKeys {a b : List String} {x : String} :
    x ∈ unionKeys a b ↔ x ∈ a ∨ x ∈ b := by
  unfold unionKeys
  rw [List.mem_append, List.mem_filter]
  constructor
  · rintro (hx | ⟨hx, _⟩)
    · exact Or.inl hx
    · exact Or.inr hx
  · rintro (hx | hx)
    · exact Or.inl hx
    · by_cases hxa : x ∈ a
      · exact Or.inl hxa
      · exact Or.inr ⟨hx, by simpa using hxa⟩

theorem clockVal_vtUpdate (a b : VectorTimestamp) (x : String) :
    clockVal (vtUpdate a b).clock x =
      max (clockVal a.clock x) (clockVal b.clock x) := by
  show clockVal ((unionKeys (a.clock.map Prod.fst) (b.clock.map Prod.fst)).map
      (fun h => (h, max (clockVal a.clock h) (clockVal b.clock h)))) x = _
  rw [clockVal_map_keys]
  by_cases hx : x ∈ unionKeys (a.clock.map Prod.fst) (b.clock.map Prod.fst)
  · rw [if_pos hx]
  · rw [if_neg hx]
    have hxa : x ∉ a.clock.map Prod.fst :=
      fun h => hx (mem_unionKeys.mpr (Or.inl h))
    have hxb : x ∉ b.clock.map Prod.fst :=
      fun h => hx (mem_unionKeys.mpr (Or.inr h))
    rw [clockVal_eq_zero_of_not_mem hxa, clockVal_eq_zero_of_not_mem hxb]
    simp

/-- C8: for two parsed clocks over the same host set, updating in either
order yields the same host-to-count mapping (every host reads the same
count, the component-wise max being commutative), while the owner of
`a.update(b)` is always `a`'s owner — here the owner of
`parse(C1).update(parse(C2))` is the first parse's host. -/
theorem vtUpdate_comm_owner (c1 c2 : List (String × Nat)) (h1 h2 : String)
    (_hsame : ∀ h, h ∈ c1.map Prod.fst ↔ h ∈ c2.map Prod.fst) :
    (∀ x, clockVal (vtUpdate (vtParse c1 h1) (vtParse c2 h2)).clock x =
          clockVal (vtUpdate (vtParse c2 h2) (vtParse c1 h1)).clock x) ∧
    (vtUpdate (vtParse c1 h1) (vtParse c2 h2)).owner = some h1 ∧
    ∀ a b : VectorTimestamp, (vtUpdate a b).owner = a.owner := by
  refine ⟨?_, rfl, fun a b => rfl⟩
  intro x
  rw [clockVal_vtUpdate, clockVal_vtUpdate]
  exact Nat.max_comm _ _

theorem vtUpdate_comm_owner_witness :
    (∀ x, clockVal (vtUpdate (vtParse [("a", 1), ("b", 5)] "a")
                       (vtParse [("a", 3), ("b", 2)] "b")).clock x =
          clockVal (vtUpdate (vtParse [("a", 3), ("b", 2)] "b")
                       (vtParse [("a", 1), ("b", 5)] "a")).clock x) ∧
    (vtUpdate (vtParse [("a", 1), ("b", 5)] "a")
        (vtParse [("a", 3), ("b", 2)] "b")).owner = some "a" ∧
    ∀ a b : VectorTimestamp, (vtUpdate a b).owner = a.owner :=
  vtUpdate_comm_owner [("a", 1), ("b", 5)] [("a", 3), ("b", 2)] "a" "b"
    (fun _ => Iff.rfl)

/-- C9: when a builder pattern contains an edge from a node required on
host `h1` to a node required on host `h2`, and no graph node of `h1`
reaches any graph node of `h2` through the graph's edges, `MotifFinder.find`
fails with `NoMatchError` — for every assignment of vector timestamps to
the graph's nodes, since matching consults only host identity and edge
reachability, never timestamp comparison (the witness instantiates the
graph with order-comparable timestamps across the two hosts). -/
theorem crossHost_requires_reachability
    (g : CGraph) (p : BPattern) (a b : Nat) (h1 h2 : String)
    (_hne : h1 ≠ h2)
    (hab : (a, b) ∈ p.edges)
    (ha : a < p.hosts.length) (hb : b < p.hosts.length)
    (hha : p.hosts.getD a "" = h1) (hhb : p.hosts.getD b "" = h2)
    (hnoreach : ∀ x, x < g.hosts.length → ∀ y, y < g.hosts.length →
        g.hosts.getD x "" = h1 → g.hosts.getD y "" = h2 →
        reaches g x y = false) :
    motifFind g p = .error .noMatchError := by
  unfold motifFind
  cases hf : (allTuples g.hosts.length p.hosts.length).find? (okAssign g p) with
  | none => rfl
  | some f =>
    exfalso
    have hsat := List.find?_some hf
    unfold okAssign at hsat
    simp only [Bool.and_eq_true] at hsat
    obtain ⟨_, hhosts, hedges⟩ := hsat
    rw [List.all_eq_true] at hhosts hedges
    have hca := hhosts a (List.mem_range.mpr ha)
    have hcb := hhosts b (List.mem_range.mpr hb)
    rw [Bool.and_eq_true] at hca hcb
    obtain ⟨hba, hhostA⟩ := hca
    obtain ⟨hbb, hhostB⟩ := hcb
    have hreach := hedges (a, b) hab
    have hba' : f.getD a 0 < g.hosts.length := of_decide_eq_true hba
    have hbb' : f.getD b 0 < g.hosts.length := of_decide_eq_true hbb
    have hhostA' : g.hosts.getD (f.getD a 0) "" = h1 := by
      rw [← beq_iff_eq.mp hhostA, hha]
    have hhostB' : g.hosts.getD (f.getD b 0) "" = h2 := by
      rw [← beq_iff_eq.mp hhostB, hhb]
    have hfalse := hnoreach _ hba' _ hbb' hhostA' hhostB'
    rw [hfalse] at hreach
    exact Bool.false_ne_true hreach

theorem crossHost_requires_reachability_witness :
    vtComparable ⟨[("A", 1)], some "A"⟩ ⟨[("A", 2), ("B", 1)], some "B"⟩ = true ∧
    motifFind
        ⟨["A", "A", "B"],
         [⟨[("A", 1)], some "A"⟩, ⟨[("A", 2)], some "A"⟩,
          ⟨[("A", 2), ("B", 1)], some "B"⟩],
         [(0, 1)]⟩
        ⟨["A", "B"], [(0, 1)]⟩ = .error .noMatchError :=
  ⟨by decide,
   crossHost_requires_reachability
     ⟨["A", "A", "B"],
      [⟨[("A", 1)], some "A"⟩, ⟨[("A", 2)], some "A"⟩,
       ⟨[("A", 2), ("B", 1)], some "B"⟩],
      [(0, 1)]⟩
     ⟨["A", "B"], [(0, 1)]⟩ 0 1 "A" "B"
     (by decide) (by decide) (by decide) (by decide) rfl rfl (by decide)⟩

theorem arrayRemove_length_le (hosts : List Nat) (h : Nat) :
    (arrayRemove hosts h).length ≤ hosts.length := by
  unfold arrayRemove
  cases hidx : hosts.findIdx? (fun x => x == h) with
  | some i => exact List.Sublist.length_le (List.eraseIdx_sublist _ _)
  | none => exact List.Sublist.length_le (List.dropLast_sublist _)

theorem addHost_ok_length {st st' : GBState} (h : addHost st = .ok st')
    (_hle : st.hosts.length ≤ MAX_HOSTS) : st'.hosts.length ≤ MAX_HOSTS := by
  unfold addHost at h
  by_cases hcap : MAX_HOSTS ≤ st.hosts.length
  · rw [if_pos hcap] at h
    exact absurd h (by simp)
  · rw [if_neg hcap] at h
    injection h with h'
    rw [← h']
    show (st.hosts ++ [st.nextId]).length ≤ MAX_HOSTS
    simpa using Nat.succ_le_of_lt (Nat.not_le.mp hcap)

theorem clearLoop_length_le (fuel : Nat) (st : GBState)
    (hle : st.hosts.length ≤ MAX_HOSTS) :
    (clearLoop fuel st).hosts.length ≤ MAX_HOSTS := by
  induction fuel generalizing st with
  | zero => exact hle
  | succ fuel ih =>
    unfold clearLoop
    cases hl : st.hosts.getLast? with
    | none => exact hle
    | some h => exact ih _ (Nat.le_trans (arrayRemove_length_le st.hosts h) hle)

theorem clearGB_length_le (st : GBState) (hle : st.hosts.length ≤ MAX_HOSTS) :
    (clearGB st).hosts.length ≤ MAX_HOSTS := by
  unfold clearGB
  have h2 : (clearLoop st.hosts.length st).hosts.length ≤ MAX_HOSTS :=
    clearLoop_length_le _ _ hle
  cases ha1 : addHost (clearLoop st.hosts.length st) with
  | error e => exact h2
  | ok st3 =>
    have h3 := addHost_ok_length ha1 h2
    show (match addHost st3 with
          | .error _ => st3
          | .ok st4 => st4).hosts.length ≤ MAX_HOSTS
    cases ha2 : addHost st3 with
    | error e => exact h3
    | ok st4 => exact addHost_ok_length ha2 h3

theorem runOp_length_le (st : GBState) (op : GBOp)
    (hle : st.hosts.length ≤ MAX_HOSTS) :
    (runOp st op).hosts.length ≤ MAX_HOSTS := by
  cases op with
  | add =>
    unfold runOp
    cases ha : addHost st with
    | error e => exact hle
    | ok st2 => exact addHost_ok_length ha hle
  | remove h => exact Nat.le_trans (arrayRemove_length_le st.hosts h) hle
  | clear => exact clearGB_length_le st hle

theorem runOps_length_le (ops : List GBOp) (st : GBState)
    (hle : st.hosts.length ≤ MAX_HOSTS) :
    (runOps st ops).hosts.length ≤ MAX_HOSTS := by
  induction ops generalizing st with
  | nil => exact hle
  | cons op ops ih => exact ih _ (runOp_length_le st op hle)

/-- C10: starting from the constructor's state, no sequence of `addHost`,
`removeHost` and `clear` operations ever drives the host count past
`MAX_HOSTS` (5); with fewer than 5 hosts, `addHost` appends exactly one new
host; with 5 hosts present, it throws the capacity `Exception` and the host
list is left unchanged. -/
theorem graphBuilder_maxHosts :
    (∀ ops : List GBOp, (runOps initGB ops).hosts.length ≤ MAX_HOSTS) ∧
    (∀ st : GBState, st.hosts.length < MAX_HOSTS →
        addHost st = .ok ⟨st.hosts ++ [st.nextId], st.nextId + 1⟩) ∧
    (∀ st : GBState, MAX_HOSTS ≤ st.hosts.length →
        addHost st = .error (.exception addHostMsg) ∧ runOp st .add = st) := by
  refine ⟨?_, ?_, ?_⟩
  · intro ops
    exact runOps_length_le ops initGB (by decide)
  · intro st hlt
    unfold addHost
    rw [if_neg (Nat.not_le.mpr hlt)]
  · intro st hge
    constructor
    · unfold addHost
      rw [if_pos hge]
    · unfold runOp addHost
      rw [if_pos hge]

theorem graphBuilder_maxHosts_witness :
    (runOps initGB [.add, .add, .add, .add, .add, .clear, .remove 0]).hosts.length ≤
      MAX_HOSTS ∧
    addHost ⟨[0, 1], 2⟩ = .ok ⟨[0, 1, 2], 3⟩ ∧
    addHost ⟨[0, 1, 2, 3, 4], 5⟩ = .error (.exception addHostMsg) :=
  ⟨graphBuilder_maxHosts.1 [.add, .add, .add, .add, .add, .clear, .remove 0],
   graphBuilder_maxHosts.2.1 ⟨[0, 1], 2⟩ (by decide),
   (graphBuilder_maxHosts.2.2 ⟨[0, 1, 2, 3, 4], 5⟩ (by decide)).1⟩

end Shiviz
